import Mathlib

/-!
The descriptor-set helpers of lightninglink, and the core the specification builds on
them.

`lightninglink.c` exports two helpers so that code which cannot expand C macros can
still prepare the arguments of `select(2)`:

    void fd_do_set(int socket, fd_set *set) { FD_SET(socket, set); }
    void fd_do_zero(fd_set *set)            { FD_ZERO(set); }

The embedding of the helpers has two layers.  The macros of `<sys/select.h>` act on
one `fd_set` object; the two helpers act on memory, through the pointer they are given.
The Frame Codec, the Request Correlator and the Client Loop of the specification are
not part of the sources; they are modelled from the specification and marked as such.
-/

namespace LightningLink

/-! ## Definitions: the parts of `<sys/select.h>` the helpers rely on -/

/-- Modelled from the spec: the constants of the system header `<sys/select.h>`, which the
repository includes but does not contain (the spec speaks of the Descriptor Set only).
`NFDBITS` is the number of bits in one word of `fd_set.fds_bits`, `FD_SETSIZE` the number
of descriptors an `fd_set` can hold.  They are parameters of the development: every
platform has `NFDBITS > 0` and an `FD_SETSIZE` that is a multiple of `NFDBITS` (Darwin: 32
and 1024; glibc on LP64: 64 and 1024). -/
structure SelectParams where
  NFDBITS : Nat
  FD_SETSIZE : Nat
  nfdbits_pos : 0 < NFDBITS
  setsize_dvd : NFDBITS ∣ FD_SETSIZE

/-- The values of Darwin, the platform the application is built for. -/
def darwin : SelectParams := ⟨32, 1024, by decide, by decide⟩

/-- The values of glibc on a 64-bit platform. -/
def glibc64 : SelectParams := ⟨64, 1024, by decide, by decide⟩

/-- Number of words of `fds_bits`: `FD_SETSIZE / NFDBITS`. -/
def SelectParams.nwords (K : SelectParams) : Nat := K.FD_SETSIZE / K.NFDBITS

/-- Modelled from the spec: the type `fd_set` of `<sys/select.h>`, an array
`fds_bits[FD_SETSIZE / NFDBITS]` of words of `NFDBITS` bits each.  A word is kept as the
natural number of its bit pattern. -/
structure fd_set (K : SelectParams) where
  fds_bits : List Nat
  size_eq : fds_bits.length = K.nwords
  word_lt : ∀ w ∈ fds_bits, w < 2 ^ K.NFDBITS

/-- Word index of a descriptor, `d / NFDBITS` in C `int` arithmetic (the quotient is
truncated towards zero). -/
def FD_ELT (K : SelectParams) (d : Int) : Int := Int.tdiv d K.NFDBITS

/-- Bit index of a descriptor inside its word, `d % NFDBITS` in C `int` arithmetic (the
remainder has the sign of `d`). -/
def FD_BIT (K : SelectParams) (d : Int) : Int := Int.tmod d K.NFDBITS

/-- The mask `1UL << (d % NFDBITS)`, for a bit index that is not negative. -/
def FD_MASK (K : SelectParams) (d : Int) : Nat := 1 <<< (FD_BIT K d).toNat

/-- The position `fds_bits[d / NFDBITS]`, bit `d % NFDBITS`, exists in an `fd_set`: the
word index is one of the array and the shift count is one of a word. -/
def FD_INSIDE (K : SelectParams) (d : Int) : Prop :=
  0 ≤ FD_ELT K d ∧ FD_ELT K d < K.nwords ∧ 0 ≤ FD_BIT K d ∧ FD_BIT K d < K.NFDBITS

instance (K : SelectParams) (d : Int) : Decidable (FD_INSIDE K d) := by
  unfold FD_INSIDE; infer_instance

/-- Modelled from the spec: the macro `FD_SET(d, set)` of `<sys/select.h>`, that is
`set->fds_bits[d / NFDBITS] |= 1UL << (d % NFDBITS)`.  The macro checks nothing.  When the
position is not one of the set the C program writes outside the object; POSIX leaves
the behaviour undefined for a descriptor below 0 or not below `FD_SETSIZE`: the
embedding returns `none` there.  Inside the set the new
word is again a word of `NFDBITS` bits, which the two proofs record. -/
def FD_SET (K : SelectParams) (d : Int) (set : fd_set K) : Option (fd_set K) :=
  if h : FD_INSIDE K d then
    some
      { fds_bits := set.fds_bits.set (FD_ELT K d).toNat
          (set.fds_bits.getD (FD_ELT K d).toNat 0 ||| FD_MASK K d)
        size_eq := by rw [List.length_set]; exact set.size_eq
        word_lt := by
          intro w hw
          rcases List.mem_or_eq_of_mem_set hw with hm | hm
          · exact set.word_lt w hm
          · rw [hm]
            apply Nat.or_lt_two_pow
            · by_cases hi : (FD_ELT K d).toNat < set.fds_bits.length
              · rw [List.getD_eq_getElem set.fds_bits 0 hi]
                exact set.word_lt _ (List.getElem_mem hi)
              · rw [List.getD_eq_default set.fds_bits 0 (by omega)]
                exact Nat.pos_pow_of_pos _ (by decide)
            · obtain ⟨_, _, h0, h1⟩ := h
              unfold FD_MASK
              rw [Nat.one_shiftLeft]
              apply Nat.pow_lt_pow_right (by decide)
              omega }
  else none

/-- Modelled from the spec: the macro `FD_ZERO(set)` of `<sys/select.h>`, which stores 0
in every word of `set->fds_bits`. -/
def FD_ZERO (K : SelectParams) (set : fd_set K) : fd_set K :=
  { fds_bits := set.fds_bits.map (fun _ => 0)
    size_eq := by rw [List.length_map]; exact set.size_eq
    word_lt := by
      intro w hw
      obtain ⟨_, _, rfl⟩ := List.mem_map.mp hw
      exact Nat.pos_pow_of_pos _ (by decide) }

/-- Modelled from the spec: the macro `FD_ISSET(d, set)` of `<sys/select.h>`, the test
`(set->fds_bits[d / NFDBITS] & (1UL << (d % NFDBITS))) != 0`.  It is how membership in
an `fd_set` is observed; a position outside the set is no member. -/
def FD_ISSET (K : SelectParams) (d : Int) (set : fd_set K) : Bool :=
  if FD_INSIDE K d then
    (set.fds_bits.getD (FD_ELT K d).toNat 0 &&& FD_MASK K d) != 0
  else false

/-! ## Definitions: memory and the two helpers -/

/-- Memory as far as the helpers see it: the `fd_set` object each pointer designates.
A pointer is the address of an object, two pointers are equal exactly when they
designate the same object. -/
abbrev Memory (K : SelectParams) := Nat → fd_set K

/-- `void fd_do_set(int socket, fd_set *set) { FD_SET(socket, set); }`: the object `*set`
is replaced by the result of `FD_SET`; `none` when `FD_SET` is undefined. -/
def fd_do_set (K : SelectParams) (socket : Int) (set : Nat) (mem : Memory K) :
    Option (Memory K) :=
  (FD_SET K socket (mem set)).map (fun s => Function.update mem set s)

/-- `void fd_do_zero(fd_set *set) { FD_ZERO(set); }`: the object `*set` is replaced by the
result of `FD_ZERO`. -/
def fd_do_zero (K : SelectParams) (set : Nat) (mem : Memory K) : Memory K :=
  Function.update mem set (FD_ZERO K (mem set))

/-- The calls `fd_do_set(d, set)` for each `d` of `L`, in order. -/
def fd_do_set_each (K : SelectParams) (L : List Int) (set : Nat) (mem : Memory K) :
    Option (Memory K) :=
  L.foldlM (fun m d => fd_do_set K d set m) mem

/-- An `fd_set` with every word 0, the content of fresh memory in examples. -/
def fd_set.empty (K : SelectParams) : fd_set K :=
  { fds_bits := List.replicate K.nwords 0
    size_eq := List.length_replicate _ _
    word_lt := by
      intro w hw
      rw [List.eq_of_mem_replicate hw]
      exact Nat.pos_pow_of_pos _ (by decide) }

/-- An `fd_set` with every bit of every word 1, a content of memory that is not fresh. -/
def fd_set.full (K : SelectParams) : fd_set K :=
  { fds_bits := List.replicate K.nwords (2 ^ K.NFDBITS - 1)
    size_eq := List.length_replicate _ _
    word_lt := by
      intro w hw
      rw [List.eq_of_mem_replicate hw]
      exact Nat.sub_lt (Nat.pos_pow_of_pos _ (by decide)) (by decide) }

/-! ## Definitions: callers, as sequences of helper calls on the two partitions -/

/-- One call of a helper: `fd_do_zero(set)` or `fd_do_set(socket, set)`. -/
inductive DescriptorSetOp where
  | zero (set : Nat)
  | set (socket : Int) (set : Nat)
  deriving DecidableEq

/-- Effect of one helper call on memory. -/
def DescriptorSetOp.apply (K : SelectParams) (mem : Memory K) :
    DescriptorSetOp → Option (Memory K)
  | .zero p => some (fd_do_zero K p mem)
  | .set d p => fd_do_set K d p mem

/-- Effect of a sequence of helper calls, in order. -/
def run_ops (K : SelectParams) (ops : List DescriptorSetOp) (mem : Memory K) :
    Option (Memory K) :=
  ops.foldlM (fun m op => op.apply K m) mem

/-- Modelled from the spec: the invariant of the Descriptor Set in §3.  `readable` and
`writable` are the two partitions, `pending_reads` and `pending_writes` say whether the
session has pending reads and pending writes: a descriptor is in both partitions only
if the session has both. -/
def DescriptorSetInvariant (K : SelectParams) (readable writable : fd_set K)
    (pending_reads pending_writes : Bool) : Prop :=
  ∀ d : Int, 0 ≤ d → d < K.FD_SETSIZE →
    FD_ISSET K d readable = true → FD_ISSET K d writable = true →
      pending_reads = true ∧ pending_writes = true

/-! ## Definitions: the Frame Codec of the specification (§3, §4.2) -/

/-- A byte of the wire. -/
abbrev Byte := Fin 256

/-- Modelled from the spec: what §3 and §4.2 say of a frame in words only.  A frame is
"length prefix plus payload plus request identifier"; the width in bytes of the length
field and of the identifier field and the configured maximum payload size are
parameters.  The spec leaves the byte order open: both fields are taken as unsigned
big-endian numbers, the order of the Lightning wire protocol. -/
structure FrameFormat where
  len_width : Nat
  id_width : Nat
  max_payload : Nat

/-- Modelled from the spec: a request as the Frame Codec sees it (§3, Frame and Pending
Request): its identifier and its serialized payload. -/
structure Request where
  request_id : Nat
  payload : List Byte
  deriving DecidableEq

/-- A number as `width` bytes, most significant byte first. -/
def be_bytes : (width : Nat) → Nat → List Byte
  | 0, _ => []
  | w + 1, n => ⟨n / 256 ^ w % 256, Nat.mod_lt _ (by decide)⟩ :: be_bytes w n

/-- The number a sequence of bytes denotes, most significant byte first. -/
def be_value (bs : List Byte) : Nat := bs.foldl (fun acc b => acc * 256 + b.val) 0

/-- Modelled from the spec: a request is well-formed (§4.2) when its payload is within
the configured maximum and both its payload length and its identifier fit their
fields. -/
def Request.well_formed (F : FrameFormat) (r : Request) : Prop :=
  r.payload.length ≤ F.max_payload ∧ r.payload.length < 256 ^ F.len_width ∧
    r.request_id < 256 ^ F.id_width

instance (F : FrameFormat) (r : Request) : Decidable (r.well_formed F) := by
  unfold Request.well_formed; infer_instance

/-- Modelled from the spec: `encode(request) → byte sequence` of the Frame Codec (§4.2),
whose code is not in the repository: the length of the payload, the payload, the request
identifier (§3, Frame). -/
def encode (F : FrameFormat) (r : Request) : List Byte :=
  be_bytes F.len_width r.payload.length ++ r.payload ++ be_bytes F.id_width r.request_id

/-- Modelled from the spec: the three results of `try_decode` (§4.2). -/
inductive DecodeResult where
  | frame (f : Request) (consumed_bytes : Nat)
  | incomplete
  | protocol_error
  deriving DecidableEq

/-- Number of bytes of the buffer a result consumes: those of the frame, if any. -/
def DecodeResult.consumed : DecodeResult → Nat
  | .frame _ n => n
  | .incomplete => 0
  | .protocol_error => 0

/-- Modelled from the spec: `try_decode(buffer)` of the Frame Codec (§4.2), whose code is
not in the repository.  Without a whole length field the buffer is incomplete; a length
above the configured maximum is a protocol error (message too large); without the whole
payload and identifier the buffer is incomplete; otherwise the frame is returned with
the number of bytes it occupies. -/
def try_decode (F : FrameFormat) (buffer : List Byte) : DecodeResult :=
  if buffer.length < F.len_width then .incomplete
  else
    let len := be_value (buffer.take F.len_width)
    if F.max_payload < len then .protocol_error
    else if buffer.length < F.len_width + len + F.id_width then .incomplete
    else
      .frame
        { request_id := be_value ((buffer.drop (F.len_width + len)).take F.id_width)
          payload := (buffer.drop F.len_width).take len }
        (F.len_width + len + F.id_width)

/-- A format with a 2-byte length, an 8-byte identifier and payloads of at most 1000
bytes, used in examples. -/
def FrameFormat.sample : FrameFormat := ⟨2, 8, 1000⟩

/-! ## Definitions: the Request Correlator of the specification (§3, §4.3, §5) -/

/-- Modelled from the spec: a Pending Request of §3, as far as the Request Correlator
tracks it: its identifier, its serialized payload and its optional deadline.  A request
is in the table exactly while its completion slot is unset (it is "destroyed when
completed"). -/
structure PendingRequest where
  request_id : Nat
  payload : List Byte
  deadline : Option Nat
  deriving DecidableEq

/-- Modelled from the spec: the state of the Request Correlator of one session (§4.3),
whose code is not in the repository: the monotonic counter from which identifiers are
assigned, and the table of pending requests. -/
structure Correlator where
  counter : Nat
  pending : List PendingRequest
  deriving DecidableEq

/-- Identifiers of the pending requests. -/
def Correlator.ids (c : Correlator) : List Nat := c.pending.map (fun r => r.request_id)

/-- A session starts with the counter at 0 and no pending request. -/
def Correlator.init : Correlator := ⟨0, []⟩

/-- Modelled from the spec: the search behind "monotonic counter, wrapping only after
confirming no collision" (§4.3).  Starting at `start`, the counter advances by one,
wrapping at `id_space` (the number of identifiers), past every identifier that is still
in use; `none` when `fuel` candidates were all in use. -/
def next_free_id (id_space : Nat) (used : List Nat) :
    (fuel : Nat) → (start : Nat) → Option Nat
  | 0, _ => none
  | fuel + 1, start =>
    if start ∈ used then next_free_id id_space used fuel ((start + 1) % id_space)
    else some start

/-- Modelled from the spec: `submit(payload) → request_id` (§4.3).  The request gets the
first identifier, from the counter on, that no pending request has, and joins the
table; the counter moves past it.  `none` when every identifier is in use, which the
spec does not expect to happen within the lifetime of a session. -/
def Correlator.submit (id_space : Nat) (c : Correlator) (payload : List Byte)
    (deadline : Option Nat) : Option (Nat × Correlator) :=
  match next_free_id id_space c.ids id_space (c.counter % id_space) with
  | none => none
  | some i =>
    some (i, { counter := (i + 1) % id_space
               pending := c.pending ++ [⟨i, payload, deadline⟩] })

/-- Modelled from the spec: `on_frame(frame)` (§4.3): the result is delivered to the
pending request with the identifier of the frame, which leaves the table; a frame that
matches no pending request is dropped. -/
def Correlator.on_frame (c : Correlator) (request_id : Nat) : Correlator :=
  { c with pending := c.pending.filter (fun r => r.request_id ≠ request_id) }

/-- Modelled from the spec: `on_timeout(now)` (§4.3): the pending requests whose deadline
has expired fail with `Timeout` and leave the table. -/
def Correlator.on_timeout (c : Correlator) (now : Nat) : Correlator :=
  { c with pending := c.pending.filter (fun r =>
      match r.deadline with
      | some t => now < t
      | none => true) }

/-- Modelled from the spec: cancellation by identifier (§5): the request fails locally
with `Cancelled` and leaves the table. -/
def Correlator.cancel (c : Correlator) (request_id : Nat) : Correlator :=
  { c with pending := c.pending.filter (fun r => r.request_id ≠ request_id) }

/-- Modelled from the spec: the session is torn down (§3, §4.4 `Closed`): every pending
request fails with `ConnectionClosed` and leaves the table. -/
def Correlator.close (c : Correlator) : Correlator := { c with pending := [] }

/-- What can happen to the Request Correlator of a session. -/
inductive CorrelatorEvent where
  | submit (payload : List Byte) (deadline : Option Nat)
  | on_frame (request_id : Nat)
  | on_timeout (now : Nat)
  | cancel (request_id : Nat)
  | close
  deriving DecidableEq

/-- One event.  A `submit` that finds no free identifier leaves the state as it is. -/
def Correlator.step (id_space : Nat) (c : Correlator) : CorrelatorEvent → Correlator
  | .submit payload deadline =>
    match c.submit id_space payload deadline with
    | some (_, c') => c'
    | none => c
  | .on_frame i => c.on_frame i
  | .on_timeout now => c.on_timeout now
  | .cancel i => c.cancel i
  | .close => c.close

/-- The state a session reaches from its start through a sequence of events. -/
def Correlator.run (id_space : Nat) (events : List CorrelatorEvent) : Correlator :=
  events.foldl (Correlator.step id_space) Correlator.init

/-- A short session with four identifiers: three requests, an answer to the second,
another request. -/
def sample_events : List CorrelatorEvent :=
  [.submit [] none, .submit [1] (some 10), .submit [] none, .on_frame 1, .submit [2] none]

/-! ## Definitions: the Client Loop of the specification (§3, §4.4, §5, §7) -/

/-- Modelled from the spec: what a completion slot can receive (§3, §7, §8): success with
the payload of the response, or failure with one of the reasons `Timeout`, `Cancelled`,
`ConnectionClosed`. -/
inductive Outcome where
  | success (payload : List Byte)
  | Timeout
  | Cancelled
  | ConnectionClosed
  deriving DecidableEq

/-- Modelled from the spec: the states of the Client Loop (§4.4). -/
inductive LoopState where
  | Connecting
  | Ready
  | Draining
  | Closed
  deriving DecidableEq

/-- Modelled from the spec: the state of the Client Loop of one session (§4.4), whose
code is not in the repository.  `correlator` is its Request Correlator.  `calls` counts
the requests accepted so far; the completion slot of a request is named by the number
of its call.  `slots` lists the pending requests as pairs of request identifier and
completion slot, and `delivered` records every delivery, oldest first, as a pair of
completion slot and outcome. -/
structure ClientLoop where
  state : LoopState
  correlator : Correlator
  slots : List (Nat × Nat)
  calls : Nat
  delivered : List (Nat × Outcome)

/-- A session starts in `Connecting`, with nothing pending and nothing delivered. -/
def ClientLoop.init : ClientLoop := ⟨.Connecting, Correlator.init, [], 0, []⟩

/-- The request of a pair (request identifier, completion slot) is in the table of the
correlator. -/
def still_pending (c : Correlator) (p : Nat × Nat) : Bool := decide (p.1 ∈ c.ids)

/-- Modelled from the spec: completion (§3, "destroyed when completed").  When the
Request Correlator moves to `c`, the requests that left its table get the outcome `o` in
their completion slot, and only those that stay in the table stay pending. -/
def ClientLoop.deliver (s : ClientLoop) (c : Correlator) (o : Outcome) : ClientLoop :=
  { s with
    correlator := c
    slots := s.slots.filter (still_pending c)
    delivered := s.delivered ++
      (s.slots.filter (fun p => !still_pending c p)).map (fun p => (p.2, o)) }

/-- What can happen to the Client Loop of a session: the handshake ends, the caller
issues a request, a response frame is decoded, the loop sweeps the deadlines, the caller
cancels a request, the caller asks for shutdown, the session is torn down (end of the
shutdown, or a failure of the transport or of decoding). -/
inductive ClientEvent where
  | handshake_done
  | call (payload : List Byte) (deadline : Option Nat)
  | frame (request_id : Nat) (payload : List Byte)
  | sweep (now : Nat)
  | cancel (request_id : Nat)
  | shutdown
  | close
  deriving DecidableEq

/-- Modelled from the spec: one step of the Client Loop (§4.4, §5, §7).  Requests are
accepted in `Connecting` (queued) and in `Ready`, and get their identifier from
`submit`; a frame in `Ready` or `Draining` completes the matching request with success;
a sweep fails the expired requests with `Timeout`; a cancellation fails the request with
`Cancelled`; a shutdown request moves `Ready` to `Draining`; tearing the session down
fails every remaining request with `ConnectionClosed` and ends in `Closed`, which is
terminal. -/
def ClientLoop.step (id_space : Nat) (s : ClientLoop) : ClientEvent → ClientLoop
  | .handshake_done =>
    if s.state = .Connecting then { s with state := .Ready } else s
  | .call payload deadline =>
    if s.state = .Connecting ∨ s.state = .Ready then
      match s.correlator.submit id_space payload deadline with
      | some (i, c) =>
        { s with correlator := c, slots := s.slots ++ [(i, s.calls)], calls := s.calls + 1 }
      | none => s
    else s
  | .frame i payload =>
    if s.state = .Ready ∨ s.state = .Draining then
      s.deliver (s.correlator.on_frame i) (.success payload)
    else s
  | .sweep now =>
    if s.state = .Closed then s else s.deliver (s.correlator.on_timeout now) .Timeout
  | .cancel i =>
    if s.state = .Closed then s else s.deliver (s.correlator.cancel i) .Cancelled
  | .shutdown =>
    if s.state = .Ready then { s with state := .Draining } else s
  | .close =>
    if s.state = .Closed then s
    else { s.deliver s.correlator.close .ConnectionClosed with state := .Closed }

/-- The state a session reaches from its start through a sequence of events. -/
def ClientLoop.run (id_space : Nat) (events : List ClientEvent) : ClientLoop :=
  events.foldl (ClientLoop.step id_space) ClientLoop.init

/-- The outcomes delivered so far to a completion slot, oldest first. -/
def ClientLoop.outcomes (s : ClientLoop) (slot : Nat) : List Outcome :=
  (s.delivered.filter (fun p => p.1 = slot)).map (fun p => p.2)

/-- The completion slots of the pending requests. -/
def ClientLoop.pending_slots (s : ClientLoop) : List Nat := s.slots.map (fun p => p.2)

/-- A session with four identifiers: two requests while connecting and ready, a response
to the second, a request with a deadline that a sweep expires, a cancellation of the
first, a request left pending. -/
def sample_session : List ClientEvent :=
  [.call [1] none, .handshake_done, .call [2] none, .frame 1 [9], .call [3] (some 5),
    .sweep 7, .cancel 0, .call [4] none]

/-! ## Lemmas: positions of descriptors -/

theorem setsize_eq (K : SelectParams) : K.FD_SETSIZE = K.NFDBITS * K.nwords := by
  unfold SelectParams.nwords
  exact (Nat.mul_div_cancel' K.setsize_dvd).symm

/-- The position of a descriptor is one of the set exactly when the descriptor is in
`[0, FD_SETSIZE)`. -/
theorem FD_INSIDE_iff (K : SelectParams) (d : Int) :
    FD_INSIDE K d ↔ 0 ≤ d ∧ d < K.FD_SETSIZE := by
  have hN : (0 : Int) < K.NFDBITS := by exact_mod_cast K.nfdbits_pos
  have hd : (K.NFDBITS : Int) * Int.tdiv d K.NFDBITS + Int.tmod d K.NFDBITS = d :=
    Int.tdiv_add_tmod d K.NFDBITS
  have hS : (K.FD_SETSIZE : Int) = K.NFDBITS * K.nwords := by exact_mod_cast setsize_eq K
  unfold FD_INSIDE FD_ELT FD_BIT
  constructor
  · rintro ⟨h1, h2, h3, h4⟩
    refine ⟨by nlinarith, ?_⟩
    have : Int.tdiv d K.NFDBITS + 1 ≤ K.nwords := by omega
    nlinarith
  · rintro ⟨h1, h2⟩
    have hq := Int.tdiv_nonneg h1 (le_of_lt hN)
    have hr := Int.tmod_nonneg (K.NFDBITS : Int) h1
    have hr2 := Int.tmod_lt_of_pos d hN
    refine ⟨hq, ?_, hr, hr2⟩
    by_contra hc
    push_neg at hc
    nlinarith

/-- Two descriptors with a position in the set are equal exactly when their positions
are. -/
theorem position_eq_iff (K : SelectParams) (x d : Int) (hx : FD_INSIDE K x)
    (hd : FD_INSIDE K d) :
    ((FD_ELT K x).toNat = (FD_ELT K d).toNat ∧ (FD_BIT K x).toNat = (FD_BIT K d).toNat)
      ↔ x = d := by
  constructor
  · rintro ⟨h1, h2⟩
    obtain ⟨a1, _, a3, _⟩ := hx
    obtain ⟨b1, _, b3, _⟩ := hd
    have e1 : FD_ELT K x = FD_ELT K d := by omega
    have e2 : FD_BIT K x = FD_BIT K d := by omega
    have hx' := Int.tdiv_add_tmod x K.NFDBITS
    have hd' := Int.tdiv_add_tmod d K.NFDBITS
    unfold FD_ELT at e1
    unfold FD_BIT at e2
    rw [← hx', ← hd', e1, e2]
  · rintro rfl
    exact ⟨rfl, rfl⟩

theorem and_mask_ne_zero (w b : Nat) : ((w &&& (1 <<< b)) != 0) = w.testBit b := by
  rw [Nat.one_shiftLeft, Nat.and_two_pow]
  cases h : w.testBit b
  · simp
  · have : 2 ^ b ≠ 0 := by positivity
    simp [this]

/-- `FD_ISSET` reads the bit at the position of the descriptor. -/
theorem FD_ISSET_eq_testBit (K : SelectParams) (x : Int) (s : fd_set K)
    (hx : FD_INSIDE K x) :
    FD_ISSET K x s = (s.fds_bits.getD (FD_ELT K x).toNat 0).testBit (FD_BIT K x).toNat := by
  unfold FD_ISSET FD_MASK
  rw [if_pos hx, and_mask_ne_zero]

theorem getD_set_eq (l : List Nat) (i j v : Nat) (hi : i < l.length) :
    (l.set i v).getD j 0 = if i = j then v else l.getD j 0 := by
  rw [List.getD_eq_getElem?_getD, List.getD_eq_getElem?_getD, List.getElem?_set]
  by_cases h : i = j
  · subst h
    simp [hi]
  · simp [h]

/-- `FD_SET` is defined on every descriptor whose position is in the set. -/
theorem FD_SET_isSome (K : SelectParams) (d : Int) (s : fd_set K) (hd : FD_INSIDE K d) :
    ∃ s', FD_SET K d s = some s' := by
  unfold FD_SET
  rw [dif_pos hd]
  exact ⟨_, rfl⟩

/-- Membership after `FD_SET(d, set)`: the descriptor `d`, and what was a member. -/
theorem FD_ISSET_FD_SET (K : SelectParams) (d x : Int) (s s' : fd_set K)
    (h : FD_SET K d s = some s') (hx : FD_INSIDE K x) :
    FD_ISSET K x s' = (decide (x = d) || FD_ISSET K x s) := by
  unfold FD_SET at h
  by_cases hd : FD_INSIDE K d
  · rw [dif_pos hd] at h
    have hs' := (Option.some.inj h).symm
    have hl : (FD_ELT K d).toNat < s.fds_bits.length := by
      rw [s.size_eq]
      obtain ⟨a1, a2, _, _⟩ := hd
      omega
    rw [FD_ISSET_eq_testBit K x s' hx, FD_ISSET_eq_testBit K x s hx, hs']
    simp only
    rw [getD_set_eq _ _ _ _ hl]
    by_cases hq : (FD_ELT K d).toNat = (FD_ELT K x).toNat
    · rw [if_pos hq, Nat.testBit_or, hq]
      unfold FD_MASK
      rw [Nat.one_shiftLeft, Nat.testBit_two_pow]
      by_cases hr : (FD_BIT K d).toNat = (FD_BIT K x).toNat
      · have := (position_eq_iff K x d hx hd).mp ⟨hq.symm, hr.symm⟩
        simp [hr, this]
      · have : x ≠ d := fun e => hr (by rw [e])
        simp [hr, this]
    · rw [if_neg hq]
      have : x ≠ d := fun e => hq (by rw [e])
      simp [this]
  · rw [dif_neg hd] at h
    exact absurd h (by simp)

/-- Nothing is a member after `FD_ZERO(set)`. -/
theorem FD_ISSET_FD_ZERO (K : SelectParams) (x : Int) (s : fd_set K) :
    FD_ISSET K x (FD_ZERO K s) = false := by
  by_cases hx : FD_INSIDE K x
  · rw [FD_ISSET_eq_testBit K x _ hx]
    unfold FD_ZERO
    simp only
    rw [List.getD_eq_getElem?_getD, List.getElem?_map]
    cases s.fds_bits[(FD_ELT K x).toNat]? <;> simp
  · unfold FD_ISSET
    rw [if_neg hx]

/-! ## Extensionality and the algebra of the macros -/

theorem fd_set.eq_of_fds_bits (K : SelectParams) (s t : fd_set K)
    (h : s.fds_bits = t.fds_bits) : s = t := by
  cases s
  cases t
  simp only at h
  subst h
  rfl

theorem position_of_word_bit (K : SelectParams) (n i : Nat) (hi : i < K.NFDBITS) :
    FD_ELT K ((K.NFDBITS * n + i : Nat) : Int) = (n : Int) ∧
      FD_BIT K ((K.NFDBITS * n + i : Nat) : Int) = (i : Int) := by
  unfold FD_ELT FD_BIT
  rw [← Int.ofNat_tdiv, ← Int.ofNat_tmod, Nat.mul_add_div K.nfdbits_pos, Nat.mul_add_mod,
    Nat.div_eq_of_lt hi, Nat.mod_eq_of_lt hi]
  exact ⟨rfl, rfl⟩

/-- An `fd_set` is determined by its members: two sets with the same members among the
descriptors of `[0, FD_SETSIZE)` are the same object content. -/
theorem fd_set.eq_of_FD_ISSET (K : SelectParams) (s t : fd_set K)
    (h : ∀ x : Int, 0 ≤ x → x < K.FD_SETSIZE → FD_ISSET K x s = FD_ISSET K x t) : s = t := by
  apply fd_set.eq_of_fds_bits
  apply List.ext_getElem (by rw [s.size_eq, t.size_eq])
  intro n h1 h2
  apply Nat.eq_of_testBit_eq
  intro i
  by_cases hi : i < K.NFDBITS
  · obtain ⟨e1, e2⟩ := position_of_word_bit K n i hi
    have hn : n < K.nwords := by rw [← s.size_eq]; exact h1
    have hin : FD_INSIDE K ((K.NFDBITS * n + i : Nat) : Int) := by
      unfold FD_INSIDE
      rw [e1, e2]
      refine ⟨by omega, by exact_mod_cast hn, by omega, by exact_mod_cast hi⟩
    have hr := (FD_INSIDE_iff K _).mp hin
    have := h _ hr.1 hr.2
    rw [FD_ISSET_eq_testBit K _ s hin, FD_ISSET_eq_testBit K _ t hin, e1, e2] at this
    simp only [Int.toNat_natCast] at this
    rw [List.getD_eq_getElem _ 0 h1, List.getD_eq_getElem _ 0 h2] at this
    exact this
  · have hs := s.word_lt _ (List.getElem_mem h1)
    have ht := t.word_lt _ (List.getElem_mem h2)
    have hp : 2 ^ K.NFDBITS ≤ 2 ^ i := Nat.pow_le_pow_right (by decide) (by omega)
    rw [Nat.testBit_lt_two_pow (lt_of_lt_of_le hs hp),
      Nat.testBit_lt_two_pow (lt_of_lt_of_le ht hp)]

/-- `FD_SET` twice with the same descriptor is `FD_SET` once. -/
theorem FD_SET_idem (K : SelectParams) (d : Int) (s s' : fd_set K)
    (h : FD_SET K d s = some s') : FD_SET K d s' = some s' := by
  have hd : FD_INSIDE K d := by
    by_contra hn
    unfold FD_SET at h
    rw [dif_neg hn] at h
    exact absurd h (by simp)
  obtain ⟨s'', h2⟩ := FD_SET_isSome K d s' hd
  rw [h2]
  congr 1
  apply fd_set.eq_of_FD_ISSET
  intro x hx0 hx1
  have hx := (FD_INSIDE_iff K x).mpr ⟨hx0, hx1⟩
  rw [FD_ISSET_FD_SET K d x s' s'' h2 hx, FD_ISSET_FD_SET K d x s s' h hx]
  cases decide (x = d) <;> simp

/-- `FD_SET` with two descriptors gives the same set in both orders. -/
theorem FD_SET_comm (K : SelectParams) (a b : Int) (s sa sb sab sba : fd_set K)
    (ha : FD_SET K a s = some sa) (hb : FD_SET K b s = some sb)
    (hab : FD_SET K b sa = some sab) (hba : FD_SET K a sb = some sba) : sab = sba := by
  apply fd_set.eq_of_FD_ISSET
  intro x hx0 hx1
  have hx := (FD_INSIDE_iff K x).mpr ⟨hx0, hx1⟩
  rw [FD_ISSET_FD_SET K b x sa sab hab hx, FD_ISSET_FD_SET K a x s sa ha hx,
    FD_ISSET_FD_SET K a x sb sba hba hx, FD_ISSET_FD_SET K b x s sb hb hx]
  cases decide (x = a) <;> cases decide (x = b) <;> simp

/-- The result of `FD_ZERO` is the same whatever the set held. -/
theorem FD_ZERO_const (K : SelectParams) (s t : fd_set K) : FD_ZERO K s = FD_ZERO K t := by
  apply fd_set.eq_of_FD_ISSET
  intro x _ _
  rw [FD_ISSET_FD_ZERO, FD_ISSET_FD_ZERO]

/-! ## The helpers on memory -/

theorem fd_do_set_some (K : SelectParams) (socket : Int) (set : Nat) (mem : Memory K)
    (h : FD_INSIDE K socket) :
    ∃ s', FD_SET K socket (mem set) = some s' ∧
      fd_do_set K socket set mem = some (Function.update mem set s') := by
  obtain ⟨s', hs⟩ := FD_SET_isSome K socket (mem set) h
  exact ⟨s', hs, by unfold fd_do_set; rw [hs]; rfl⟩

theorem fd_do_set_none (K : SelectParams) (socket : Int) (set : Nat) (mem : Memory K)
    (h : ¬ FD_INSIDE K socket) : fd_do_set K socket set mem = none := by
  unfold fd_do_set FD_SET
  rw [dif_neg h]
  rfl

theorem fd_do_set_each_cons (K : SelectParams) (d : Int) (L : List Int) (set : Nat)
    (mem : Memory K) :
    fd_do_set_each K (d :: L) set mem
      = (fd_do_set K d set mem).bind (fun m => fd_do_set_each K L set m) := by
  unfold fd_do_set_each
  rw [List.foldlM_cons]
  rfl

/-- Running `fd_do_set` over a list of descriptors of `[0, FD_SETSIZE)` is defined, adds
the descriptors of the list to the set, and touches no other object. -/
theorem fd_do_set_each_spec (K : SelectParams) (L : List Int) (set : Nat) :
    ∀ mem : Memory K, (∀ d ∈ L, 0 ≤ d ∧ d < K.FD_SETSIZE) →
      ∃ mem', fd_do_set_each K L set mem = some mem' ∧
        (∀ other, other ≠ set → mem' other = mem other) ∧
        ∀ x : Int, 0 ≤ x → x < K.FD_SETSIZE →
          FD_ISSET K x (mem' set) = (decide (x ∈ L) || FD_ISSET K x (mem set)) := by
  induction L with
  | nil =>
    intro mem _
    exact ⟨mem, rfl, fun _ _ => rfl, fun x _ _ => by simp⟩
  | cons d L ih =>
    intro mem hL
    have hd := (FD_INSIDE_iff K d).mpr (hL d (List.mem_cons_self _ _))
    obtain ⟨s', hs, hm⟩ := fd_do_set_some K d set mem hd
    obtain ⟨mem', h1, h2, h3⟩ := ih (Function.update mem set s')
      (fun e he => hL e (List.mem_cons_of_mem _ he))
    refine ⟨mem', ?_, ?_, ?_⟩
    · rw [fd_do_set_each_cons, hm]
      exact h1
    · intro other ho
      rw [h2 other ho, Function.update_noteq ho]
    · intro x hx0 hx1
      have hx := (FD_INSIDE_iff K x).mpr ⟨hx0, hx1⟩
      rw [h3 x hx0 hx1, Function.update_same, FD_ISSET_FD_SET K d x (mem set) s' hs hx]
      by_cases e1 : x = d <;> by_cases e2 : x ∈ L <;> simp [e1, e2]

theorem run_ops_cons (K : SelectParams) (op : DescriptorSetOp) (ops : List DescriptorSetOp)
    (mem : Memory K) :
    run_ops K (op :: ops) mem = (op.apply K mem).bind (fun m => run_ops K ops m) := by
  unfold run_ops
  rw [List.foldlM_cons]
  rfl

theorem FD_ISSET_empty (K : SelectParams) (d : Int) :
    FD_ISSET K d (fd_set.empty K) = false := by
  have h := FD_ISSET_FD_ZERO K d (fd_set.empty K)
  have e : FD_ZERO K (fd_set.empty K) = fd_set.empty K := by
    apply fd_set.eq_of_fds_bits
    unfold FD_ZERO fd_set.empty
    simp
  rw [e] at h
  exact h

/-! ## Lemmas: the Frame Codec -/

theorem be_bytes_length (w n : Nat) : (be_bytes w n).length = w := by
  induction w with
  | zero => rfl
  | succ w ih => simp [be_bytes, ih]

theorem be_value_foldl (w n acc : Nat) :
    (be_bytes w n).foldl (fun a (b : Byte) => a * 256 + b.val) acc
      = acc * 256 ^ w + n % 256 ^ w := by
  induction w generalizing acc with
  | zero => simp [be_bytes, Nat.mod_one]
  | succ w ih =>
    simp only [be_bytes, List.foldl_cons]
    rw [ih, pow_succ, Nat.mod_mul]
    ring

theorem be_value_be_bytes (w n : Nat) (h : n < 256 ^ w) : be_value (be_bytes w n) = n := by
  unfold be_value
  rw [be_value_foldl, Nat.mod_eq_of_lt h]
  simp

/-! ## Lemmas: the Request Correlator -/

theorem next_free_id_not_used (id_space : Nat) (used : List Nat) (fuel : Nat) :
    ∀ start i, next_free_id id_space used fuel start = some i → i ∉ used := by
  induction fuel with
  | zero => intro start i h; simp [next_free_id] at h
  | succ fuel ih =>
    intro start i h
    unfold next_free_id at h
    by_cases hs : start ∈ used
    · rw [if_pos hs] at h
      exact ih _ _ h
    · rw [if_neg hs] at h
      cases h
      exact hs

/-- When the search fails, each of the `fuel` candidates from `start` on is in use. -/
theorem next_free_id_none (id_space : Nat) (used : List Nat) (fuel : Nat) :
    ∀ start, next_free_id id_space used fuel start = none →
      ∀ k, k < fuel → (start + k) % id_space ∈ used ∨ (k = 0 ∧ start ∈ used) := by
  induction fuel with
  | zero => intro start _ k hk; omega
  | succ fuel ih =>
    intro start h k hk
    unfold next_free_id at h
    by_cases hs : start ∈ used
    · rw [if_pos hs] at h
      cases k with
      | zero => exact Or.inr ⟨rfl, hs⟩
      | succ k =>
        left
        rcases ih _ h k (by omega) with h1 | ⟨h0, h1⟩
        · rw [Nat.mod_add_mod] at h1
          rw [show start + (k + 1) = start + 1 + k by omega]
          exact h1
        · subst h0
          simpa using h1
    · rw [if_neg hs] at h
      cases h

theorem candidates_cover (id_space start r : Nat) (hs : start < id_space)
    (hr : r < id_space) : ∃ k, k < id_space ∧ (start + k) % id_space = r := by
  by_cases h : start ≤ r
  · exact ⟨r - start, by omega, by rw [Nat.add_sub_cancel' h, Nat.mod_eq_of_lt hr]⟩
  · refine ⟨r + id_space - start, by omega, ?_⟩
    rw [show start + (r + id_space - start) = r + id_space by omega, Nat.add_mod_right,
      Nat.mod_eq_of_lt hr]

/-- While fewer requests are pending than there are identifiers, the search finds one. -/
theorem next_free_id_some (id_space : Nat) (used : List Nat) (start : Nat)
    (hs : start < id_space) (hlen : used.length < id_space) :
    ∃ i, next_free_id id_space used id_space start = some i := by
  cases h : next_free_id id_space used id_space start with
  | some i => exact ⟨i, rfl⟩
  | none =>
    exfalso
    have hall := next_free_id_none id_space used id_space start h
    have hsub : List.range id_space ⊆ used := by
      intro r hr
      rw [List.mem_range] at hr
      obtain ⟨k, hk, he⟩ := candidates_cover id_space start r hs hr
      rcases hall k hk with h1 | ⟨h0, h1⟩
      · rw [he] at h1
        exact h1
      · subst h0
        rw [Nat.add_zero, Nat.mod_eq_of_lt hs] at he
        rw [← he]
        exact h1
    have := ((List.nodup_range id_space).subperm hsub).length_le
    rw [List.length_range] at this
    omega

theorem ids_filter_nodup (c : Correlator) (p : PendingRequest → Bool) (h : c.ids.Nodup) :
    ({ c with pending := c.pending.filter p } : Correlator).ids.Nodup := by
  unfold Correlator.ids at *
  exact h.sublist (List.filter_sublist _ |>.map _)

theorem submit_spec (id_space : Nat) (c : Correlator) (payload : List Byte)
    (deadline : Option Nat) (i : Nat) (c' : Correlator)
    (h : c.submit id_space payload deadline = some (i, c')) :
    i ∉ c.ids ∧ c'.ids = c.ids ++ [i] := by
  unfold Correlator.submit at h
  cases hn : next_free_id id_space c.ids id_space (c.counter % id_space) with
  | none => rw [hn] at h; cases h
  | some j =>
    rw [hn] at h
    simp only [Option.some.injEq, Prod.mk.injEq] at h
    obtain ⟨rfl, rfl⟩ := h
    refine ⟨next_free_id_not_used _ _ _ _ _ hn, ?_⟩
    simp [Correlator.ids]

theorem step_nodup (id_space : Nat) (c : Correlator) (e : CorrelatorEvent)
    (h : c.ids.Nodup) : (c.step id_space e).ids.Nodup := by
  cases e with
  | submit payload deadline =>
    simp only [Correlator.step]
    cases hs : c.submit id_space payload deadline with
    | none => exact h
    | some r =>
      obtain ⟨i, c'⟩ := r
      obtain ⟨h1, h2⟩ := submit_spec id_space c payload deadline i c' hs
      show c'.ids.Nodup
      rw [h2]
      exact List.Nodup.append h (List.nodup_singleton i) (by simpa using h1)
  | on_frame i => exact ids_filter_nodup c _ h
  | on_timeout now => exact ids_filter_nodup c _ h
  | cancel i => exact ids_filter_nodup c _ h
  | close => exact List.nodup_nil

theorem foldl_step_nodup (id_space : Nat) (events : List CorrelatorEvent) :
    ∀ c : Correlator, c.ids.Nodup →
      (events.foldl (Correlator.step id_space) c).ids.Nodup := by
  induction events with
  | nil => intro c h; exact h
  | cons e es ih => intro c h; exact ih _ (step_nodup id_space c e h)

/-! ## Lemmas: the Client Loop -/

/-- A completion moves slots from the pending requests to the record of deliveries and
neither drops nor repeats one. -/
theorem deliver_tracked (s : ClientLoop) (c : Correlator) (o : Outcome) :
    ((s.deliver c o).pending_slots ++ (s.deliver c o).delivered.map (fun p => p.1)).Perm
      (s.pending_slots ++ s.delivered.map (fun p => p.1)) := by
  unfold ClientLoop.deliver ClientLoop.pending_slots
  simp only [List.map_append, List.map_map]
  have hsplit := (List.filter_append_perm (still_pending c) s.slots).map (fun p => p.2)
  rw [List.map_append] at hsplit
  have e : ((fun p : Nat × Outcome => p.1) ∘ fun p : Nat × Nat => (p.2, o))
      = fun p : Nat × Nat => p.2 := rfl
  rw [e]
  refine List.Perm.trans ?_ (hsplit.append_right _)
  rw [List.append_assoc]
  exact List.Perm.append_left _ List.perm_append_comm

/-- The invariant of the Client Loop: the completion slots of the pending requests
together with the slots of the deliveries are the slots of the calls accepted so far,
each exactly once; and a closed session has no pending request. -/
theorem step_invariant (id_space : Nat) (s : ClientLoop) (e : ClientEvent)
    (h : (s.pending_slots ++ s.delivered.map (fun p => p.1)).Perm (List.range s.calls))
    (hc : s.state = .Closed → s.slots = []) :
    ((s.step id_space e).pending_slots ++ (s.step id_space e).delivered.map (fun p => p.1)).Perm
        (List.range (s.step id_space e).calls) ∧
      ((s.step id_space e).state = .Closed → (s.step id_space e).slots = []) := by
  cases e with
  | handshake_done =>
    simp only [ClientLoop.step]
    split
    · rename_i hs
      exact ⟨h, fun hcl => by cases hcl⟩
    · exact ⟨h, hc⟩
  | call payload deadline =>
    simp only [ClientLoop.step]
    split
    · rename_i hs
      cases hsub : s.correlator.submit id_space payload deadline with
      | none => exact ⟨h, hc⟩
      | some r =>
        obtain ⟨i, c⟩ := r
        refine ⟨?_, ?_⟩
        · simp only [ClientLoop.pending_slots, List.map_append, List.map_cons, List.map_nil]
          rw [List.range_succ]
          have h2 : ((List.map (fun p : Nat × Nat => p.2) s.slots ++ [s.calls]) ++
              List.map (fun p : Nat × Outcome => p.1) s.delivered).Perm
              ((List.map (fun p : Nat × Nat => p.2) s.slots ++
                List.map (fun p : Nat × Outcome => p.1) s.delivered) ++ [s.calls]) := by
            rw [List.append_assoc, List.append_assoc]
            exact List.Perm.append_left _ List.perm_append_comm
          exact h2.trans (List.Perm.append_right _ h)
        · intro hcl
          simp only at hcl
          rcases hs with hs | hs <;> rw [hs] at hcl <;> cases hcl
    · exact ⟨h, hc⟩
  | frame i payload =>
    simp only [ClientLoop.step]
    split
    · rename_i hs
      refine ⟨(deliver_tracked s _ _).trans h, ?_⟩
      intro hcl
      have : s.state = .Closed := hcl
      rcases hs with hs | hs <;> rw [hs] at this <;> cases this
    · exact ⟨h, hc⟩
  | sweep now =>
    simp only [ClientLoop.step]
    split
    · exact ⟨h, hc⟩
    · rename_i hs
      exact ⟨(deliver_tracked s _ _).trans h, fun hcl => absurd hcl hs⟩
  | cancel i =>
    simp only [ClientLoop.step]
    split
    · exact ⟨h, hc⟩
    · rename_i hs
      exact ⟨(deliver_tracked s _ _).trans h, fun hcl => absurd hcl hs⟩
  | shutdown =>
    simp only [ClientLoop.step]
    split
    · exact ⟨h, fun hcl => by cases hcl⟩
    · exact ⟨h, hc⟩
  | close =>
    simp only [ClientLoop.step]
    split
    · exact ⟨h, hc⟩
    · refine ⟨(deliver_tracked s s.correlator.close .ConnectionClosed).trans h, ?_⟩
      intro _
      show s.slots.filter (still_pending s.correlator.close) = []
      rw [List.filter_eq_nil_iff]
      intro p _
      simp [still_pending, Correlator.close, Correlator.ids]

theorem foldl_step_invariant (id_space : Nat) (events : List ClientEvent) :
    ∀ s : ClientLoop,
      (s.pending_slots ++ s.delivered.map (fun p => p.1)).Perm (List.range s.calls) →
      (s.state = .Closed → s.slots = []) →
      ((events.foldl (ClientLoop.step id_space) s).pending_slots ++
          (events.foldl (ClientLoop.step id_space) s).delivered.map (fun p => p.1)).Perm
          (List.range (events.foldl (ClientLoop.step id_space) s).calls) ∧
        ((events.foldl (ClientLoop.step id_space) s).state = .Closed →
          (events.foldl (ClientLoop.step id_space) s).slots = []) := by
  induction events with
  | nil => intro s h hc; exact ⟨h, hc⟩
  | cons e es ih =>
    intro s h hc
    obtain ⟨h1, h2⟩ := step_invariant id_space s e h hc
    exact ih _ h1 h2

theorem run_invariant (id_space : Nat) (events : List ClientEvent) :
    ((ClientLoop.run id_space events).pending_slots ++
        (ClientLoop.run id_space events).delivered.map (fun p => p.1)).Perm
        (List.range (ClientLoop.run id_space events).calls) ∧
      ((ClientLoop.run id_space events).state = .Closed →
        (ClientLoop.run id_space events).slots = []) :=
  foldl_step_invariant id_space events ClientLoop.init (List.Perm.refl _)
    (fun _ => rfl)

theorem run_append (id_space : Nat) (events more : List ClientEvent) :
    ClientLoop.run id_space (events ++ more)
      = more.foldl (ClientLoop.step id_space) (ClientLoop.run id_space events) := by
  unfold ClientLoop.run
  rw [List.foldl_append]

/-- The number of outcomes delivered to a slot is the number of deliveries that name it. -/
theorem outcomes_length (s : ClientLoop) (slot : Nat) :
    (s.outcomes slot).length = (s.delivered.map (fun p => p.1)).count slot := by
  unfold ClientLoop.outcomes
  rw [List.length_map, List.count_eq_countP, List.countP_map, List.countP_eq_length_filter]
  congr 1

/-- At any time a slot has at most one outcome, and the slot of an accepted request is
either pending without an outcome or not pending with exactly one. -/
theorem outcomes_of_run (id_space : Nat) (events : List ClientEvent) (slot : Nat) :
    ((ClientLoop.run id_space events).outcomes slot).length ≤ 1 ∧
    (slot < (ClientLoop.run id_space events).calls →
      (slot ∈ (ClientLoop.run id_space events).pending_slots ∧
          (ClientLoop.run id_space events).outcomes slot = []) ∨
        (slot ∉ (ClientLoop.run id_space events).pending_slots ∧
          ∃ o, (ClientLoop.run id_space events).outcomes slot = [o])) := by
  obtain ⟨hperm, _⟩ := run_invariant id_space events
  have hnd := (hperm.nodup_iff).mpr (List.nodup_range _)
  obtain ⟨_, hnd2, hdisj⟩ := List.nodup_append.mp hnd
  have hle : ((ClientLoop.run id_space events).outcomes slot).length ≤ 1 := by
    rw [outcomes_length]
    exact List.nodup_iff_count_le_one.mp hnd2 slot
  refine ⟨hle, ?_⟩
  intro hlt
  have hmem : slot ∈ (ClientLoop.run id_space events).pending_slots ++
      (ClientLoop.run id_space events).delivered.map (fun p => p.1) :=
    hperm.mem_iff.mpr (List.mem_range.mpr hlt)
  rcases List.mem_append.mp hmem with hp | hd
  · left
    refine ⟨hp, ?_⟩
    have hnot : slot ∉ (ClientLoop.run id_space events).delivered.map (fun p => p.1) :=
      fun hd => hdisj hp hd
    have := outcomes_length (ClientLoop.run id_space events) slot
    rw [List.count_eq_zero_of_not_mem hnot] at this
    exact List.length_eq_zero.mp this
  · right
    refine ⟨fun hp => hdisj hp hd, ?_⟩
    have hpos := List.count_pos_iff.mpr hd
    have := outcomes_length (ClientLoop.run id_space events) slot
    exact List.length_eq_one.mp (by omega)

theorem step_close (id_space : Nat) (s : ClientLoop) :
    (s.step id_space .close).state = .Closed ∧ (s.step id_space .close).calls = s.calls := by
  simp only [ClientLoop.step]
  split
  · rename_i h
    exact ⟨h, rfl⟩
  · exact ⟨rfl, rfl⟩

/-- Deliveries are only ever added at the end of the record. -/
theorem step_delivered (id_space : Nat) (s : ClientLoop) (e : ClientEvent) :
    ∃ extra, (s.step id_space e).delivered = s.delivered ++ extra := by
  cases e with
  | handshake_done =>
    simp only [ClientLoop.step]
    split <;> exact ⟨[], (List.append_nil _).symm⟩
  | call payload deadline =>
    simp only [ClientLoop.step]
    split
    · cases hsub : s.correlator.submit id_space payload deadline with
      | none => exact ⟨[], (List.append_nil _).symm⟩
      | some r => exact ⟨[], (List.append_nil _).symm⟩
    · exact ⟨[], (List.append_nil _).symm⟩
  | frame i payload =>
    simp only [ClientLoop.step]
    split
    · exact ⟨_, rfl⟩
    · exact ⟨[], (List.append_nil _).symm⟩
  | sweep now =>
    simp only [ClientLoop.step]
    split
    · exact ⟨[], (List.append_nil _).symm⟩
    · exact ⟨_, rfl⟩
  | cancel i =>
    simp only [ClientLoop.step]
    split
    · exact ⟨[], (List.append_nil _).symm⟩
    · exact ⟨_, rfl⟩
  | shutdown =>
    simp only [ClientLoop.step]
    split <;> exact ⟨[], (List.append_nil _).symm⟩
  | close =>
    simp only [ClientLoop.step]
    split
    · exact ⟨[], (List.append_nil _).symm⟩
    · exact ⟨_, rfl⟩

theorem foldl_step_delivered (id_space : Nat) (events : List ClientEvent) :
    ∀ s : ClientLoop, ∃ extra,
      (events.foldl (ClientLoop.step id_space) s).delivered = s.delivered ++ extra := by
  induction events with
  | nil => intro s; exact ⟨[], (List.append_nil _).symm⟩
  | cons e es ih =>
    intro s
    obtain ⟨x1, h1⟩ := step_delivered id_space s e
    obtain ⟨x2, h2⟩ := ih (s.step id_space e)
    exact ⟨x1 ++ x2, by rw [List.foldl_cons, h2, h1, List.append_assoc]⟩

/-- While fewer requests are pending than there are identifiers, `submit` accepts. -/
theorem submit_some (id_space : Nat) (c : Correlator) (payload : List Byte)
    (deadline : Option Nat) (h : c.pending.length < id_space) :
    ∃ i c', c.submit id_space payload deadline = some (i, c') := by
  have hpos : 0 < id_space := by omega
  obtain ⟨i, hi⟩ := next_free_id_some id_space c.ids (c.counter % id_space)
    (Nat.mod_lt _ hpos) (by simpa [Correlator.ids] using h)
  unfold Correlator.submit
  rw [hi]
  exact ⟨i, _, rfl⟩

/-! ## The claims about the descriptor-set helpers -/

/-- C1: after `fd_do_zero(set)` and then `fd_do_set(d, set)` for each `d` of a list `L`
of descriptors of `[0, FD_SETSIZE)`, whatever the set held before, a descriptor `x` of
`[0, FD_SETSIZE)` is a member of the set if and only if `x` occurs in `L`. -/
theorem descriptor_set_members (K : SelectParams) (mem : Memory K) (set : Nat)
    (L : List Int) (hL : ∀ d ∈ L, 0 ≤ d ∧ d < K.FD_SETSIZE) :
    ∃ mem', fd_do_set_each K L set (fd_do_zero K set mem) = some mem' ∧
      ∀ x : Int, 0 ≤ x → x < K.FD_SETSIZE → (FD_ISSET K x (mem' set) = true ↔ x ∈ L) := by
  obtain ⟨mem', h1, _, h3⟩ := fd_do_set_each_spec K L set (fd_do_zero K set mem) hL
  refine ⟨mem', h1, ?_⟩
  intro x hx0 hx1
  rw [h3 x hx0 hx1]
  unfold fd_do_zero
  rw [Function.update_same, FD_ISSET_FD_ZERO]
  simp

/-- C1 on Darwin, from a set that held every descriptor, with the list 3, 5, 3. -/
theorem descriptor_set_members_witness :
    (∀ d ∈ [(3 : Int), 5, 3], 0 ≤ d ∧ d < darwin.FD_SETSIZE) ∧
    ∃ mem', fd_do_set_each darwin [3, 5, 3] 0 (fd_do_zero darwin 0 (fun _ => fd_set.full darwin))
        = some mem' ∧
      ∀ x : Int, 0 ≤ x → x < darwin.FD_SETSIZE →
        (FD_ISSET darwin x (mem' 0) = true ↔ x ∈ [(3 : Int), 5, 3]) :=
  ⟨by decide, descriptor_set_members darwin (fun _ => fd_set.full darwin) 0 [3, 5, 3] (by decide)⟩

/-- C2, as stated, fails: for the descriptor `FD_SETSIZE` (1024 on Darwin) `fd_do_set`
has no defined result, the write lands outside the object it was given; no set is
produced of which the claim could hold. -/
theorem fd_do_set_frame_counterexample :
    fd_do_set darwin 1024 0 (fun _ => fd_set.empty darwin) = none ∧
    ¬ ∃ mem', fd_do_set darwin 1024 0 (fun _ => fd_set.empty darwin) = some mem' ∧
      ∀ other, other ≠ 0 → mem' other = (fun _ => fd_set.empty darwin) other := by
  have hn := fd_do_set_none darwin 1024 0 (fun _ => fd_set.empty darwin) (by decide)
  refine ⟨hn, ?_⟩
  rintro ⟨mem', h, _⟩
  rw [hn] at h
  exact absurd h (by simp)

/-- C2, amended: for every descriptor of `[0, FD_SETSIZE)` and every set, `fd_do_set`
produces a set that depends on the descriptor and the content of the set passed alone
(a second run on equal arguments, in any memory, produces an equal set), and every
other set is unchanged; the same holds of `fd_do_zero`, for every set and with no
condition on any descriptor. -/
theorem fd_helpers_frame (K : SelectParams) (socket : Int) (set : Nat) (mem : Memory K) :
    (0 ≤ socket → socket < K.FD_SETSIZE →
      ∃ mem', fd_do_set K socket set mem = some mem' ∧
        (∀ other, other ≠ set → mem' other = mem other) ∧
        ∀ (set2 : Nat) (mem2 : Memory K), mem2 set2 = mem set →
          ∃ mem2', fd_do_set K socket set2 mem2 = some mem2' ∧ mem2' set2 = mem' set) ∧
    (∀ other, other ≠ set → fd_do_zero K set mem other = mem other) ∧
    ∀ (set2 : Nat) (mem2 : Memory K), mem2 set2 = mem set →
      fd_do_zero K set2 mem2 set2 = fd_do_zero K set mem set := by
  refine ⟨?_, fun other ho => Function.update_noteq ho _ _, ?_⟩
  · intro h0 h1
    have hd := (FD_INSIDE_iff K socket).mpr ⟨h0, h1⟩
    obtain ⟨s', hs, hm⟩ := fd_do_set_some K socket set mem hd
    refine ⟨_, hm, fun other ho => Function.update_noteq ho _ _, ?_⟩
    intro set2 mem2 he
    obtain ⟨s2, hs2, hm2⟩ := fd_do_set_some K socket set2 mem2 hd
    refine ⟨_, hm2, ?_⟩
    rw [Function.update_same, Function.update_same]
    rw [he, hs] at hs2
    exact (Option.some.inj hs2).symm
  · intro set2 mem2 he
    unfold fd_do_zero
    rw [Function.update_same, Function.update_same, he]

/-- C2 amended, on Darwin with descriptor 5 and the set at pointer 0. -/
theorem fd_helpers_frame_witness :
    ((0 : Int) ≤ 5 ∧ (5 : Int) < darwin.FD_SETSIZE) ∧
    ((∃ mem', fd_do_set darwin 5 0 (fun _ => fd_set.empty darwin) = some mem' ∧
      (∀ other, other ≠ 0 → mem' other = (fun _ => fd_set.empty darwin) other) ∧
      ∀ (set2 : Nat) (mem2 : Memory darwin), mem2 set2 = (fun _ => fd_set.empty darwin) 0 →
        ∃ mem2', fd_do_set darwin 5 set2 mem2 = some mem2' ∧ mem2' set2 = mem' 0) ∧
    (∀ other, other ≠ 0 →
      fd_do_zero darwin 0 (fun _ => fd_set.empty darwin) other
        = (fun _ => fd_set.empty darwin) other) ∧
    ∀ (set2 : Nat) (mem2 : Memory darwin), mem2 set2 = (fun _ => fd_set.empty darwin) 0 →
      fd_do_zero darwin set2 mem2 set2
        = fd_do_zero darwin 0 (fun _ => fd_set.empty darwin) 0) :=
  ⟨by decide,
    (fd_helpers_frame darwin 5 0 (fun _ => fd_set.empty darwin)).1 (by decide) (by decide),
    (fd_helpers_frame darwin 5 0 (fun _ => fd_set.empty darwin)).2⟩

/-- C7, as stated, fails: with the readable partition at pointer 0 and the writable
partition at pointer 1, and a session with neither pending reads nor pending writes,
the calls `fd_do_zero`, `fd_do_zero`, `fd_do_set(3, readable)`, `fd_do_set(3, writable)`
reach a state where descriptor 3 is in both partitions: the invariant held before the
calls and does not hold after them. -/
theorem descriptor_set_invariant_counterexample :
    DescriptorSetInvariant darwin (fd_set.empty darwin) (fd_set.empty darwin) false false ∧
    ∃ mem', run_ops darwin [.zero 0, .zero 1, .set 3 0, .set 3 1]
        (fun _ => fd_set.empty darwin) = some mem' ∧
      FD_ISSET darwin 3 (mem' 0) = true ∧ FD_ISSET darwin 3 (mem' 1) = true ∧
      ¬ DescriptorSetInvariant darwin (mem' 0) (mem' 1) false false := by
  constructor
  · intro d _ _ h
    rw [FD_ISSET_empty] at h
    exact absurd h (by simp)
  · refine ⟨_, rfl, by decide, by decide, ?_⟩
    intro h
    have := h 3 (by decide) (by decide) (by decide) (by decide)
    simp at this

/-- C7, amended: along every sequence of helper calls with descriptors of
`[0, FD_SETSIZE)` the result is defined, and a descriptor is a member of a partition
afterwards only if it was one before or `fd_do_set` registered it in that very
partition; so registering a descriptor in one partition never registers it in the
other, and a descriptor is in both partitions only if this holds of each of the two. -/
theorem descriptor_set_partitions (K : SelectParams) (ops : List DescriptorSetOp) :
    ∀ mem : Memory K,
      (∀ d p, DescriptorSetOp.set d p ∈ ops → 0 ≤ d ∧ d < K.FD_SETSIZE) →
      ∃ mem', run_ops K ops mem = some mem' ∧
        ∀ (p : Nat) (x : Int), 0 ≤ x → x < K.FD_SETSIZE → FD_ISSET K x (mem' p) = true →
          FD_ISSET K x (mem p) = true ∨ DescriptorSetOp.set x p ∈ ops := by
  induction ops with
  | nil =>
    intro mem _
    exact ⟨mem, rfl, fun p x _ _ h => Or.inl h⟩
  | cons op ops ih =>
    intro mem hops
    have hrest : ∀ d p, DescriptorSetOp.set d p ∈ ops → 0 ≤ d ∧ d < K.FD_SETSIZE :=
      fun d p h => hops d p (List.mem_cons_of_mem _ h)
    cases op with
    | zero q =>
      obtain ⟨mem', h1, h2⟩ := ih (fd_do_zero K q mem) hrest
      refine ⟨mem', by rw [run_ops_cons]; exact h1, ?_⟩
      intro p x hx0 hx1 hm
      rcases h2 p x hx0 hx1 hm with h | h
      · left
        unfold fd_do_zero at h
        by_cases hp : p = q
        · subst hp
          rw [Function.update_same, FD_ISSET_FD_ZERO] at h
          exact absurd h (by simp)
        · rw [Function.update_noteq hp] at h
          exact h
      · exact Or.inr (List.mem_cons_of_mem _ h)
    | set d q =>
      have hd := (FD_INSIDE_iff K d).mpr (hops d q (List.mem_cons_self _ _))
      obtain ⟨s', hs, hm⟩ := fd_do_set_some K d q mem hd
      obtain ⟨mem', h1, h2⟩ := ih (Function.update mem q s') hrest
      refine ⟨mem', ?_, ?_⟩
      · rw [run_ops_cons]
        show (fd_do_set K d q mem).bind _ = _
        rw [hm]
        exact h1
      · intro p x hx0 hx1 hmem
        have hx := (FD_INSIDE_iff K x).mpr ⟨hx0, hx1⟩
        rcases h2 p x hx0 hx1 hmem with h | h
        · by_cases hp : p = q
          · subst hp
            rw [Function.update_same, FD_ISSET_FD_SET K d x (mem p) s' hs hx] at h
            by_cases e : x = d
            · subst e
              exact Or.inr (List.mem_cons_self _ _)
            · left
              simpa [e] using h
          · rw [Function.update_noteq hp] at h
            exact Or.inl h
        · exact Or.inr (List.mem_cons_of_mem _ h)

/-- C7 amended, on Darwin from empty memory: both partitions cleared, then descriptor 3
registered in the readable partition (pointer 0) only; whatever is a member afterwards
was registered by that call. -/
theorem descriptor_set_partitions_witness :
    (∀ d p, DescriptorSetOp.set d p ∈ [DescriptorSetOp.zero 0, .zero 1, .set 3 0] →
      0 ≤ d ∧ d < darwin.FD_SETSIZE) ∧
    ∃ mem', run_ops darwin [.zero 0, .zero 1, .set 3 0] (fun _ => fd_set.empty darwin)
        = some mem' ∧
      ∀ (p : Nat) (x : Int), 0 ≤ x → x < darwin.FD_SETSIZE →
        FD_ISSET darwin x (mem' p) = true →
          FD_ISSET darwin x ((fun _ => fd_set.empty darwin) p) = true ∨
            DescriptorSetOp.set x p ∈ [DescriptorSetOp.zero 0, .zero 1, .set 3 0] :=
  ⟨by
      intro d p h
      simp at h
      rw [h.1]
      decide,
    descriptor_set_partitions darwin [.zero 0, .zero 1, .set 3 0] (fun _ => fd_set.empty darwin)
      (by
        intro d p h
        simp at h
        rw [h.1]
        decide)⟩

/-- C8: for every content of the set and every `socket` of `[0, FD_SETSIZE)`,
`fd_do_set(socket, set)` makes `socket` a member, and every other descriptor of
`[0, FD_SETSIZE)` is a member afterwards if and only if it was one before. -/
theorem fd_do_set_adds_one (K : SelectParams) (socket : Int) (set : Nat) (mem : Memory K)
    (h0 : 0 ≤ socket) (h1 : socket < K.FD_SETSIZE) :
    ∃ mem', fd_do_set K socket set mem = some mem' ∧
      FD_ISSET K socket (mem' set) = true ∧
      ∀ x : Int, 0 ≤ x → x < K.FD_SETSIZE → x ≠ socket →
        (FD_ISSET K x (mem' set) = true ↔ FD_ISSET K x (mem set) = true) := by
  have hd := (FD_INSIDE_iff K socket).mpr ⟨h0, h1⟩
  obtain ⟨s', hs, hm⟩ := fd_do_set_some K socket set mem hd
  refine ⟨_, hm, ?_, ?_⟩
  · rw [Function.update_same, FD_ISSET_FD_SET K socket socket (mem set) s' hs hd]
    simp
  · intro x hx0 hx1 hne
    have hx := (FD_INSIDE_iff K x).mpr ⟨hx0, hx1⟩
    rw [Function.update_same, FD_ISSET_FD_SET K socket x (mem set) s' hs hx]
    simp [hne]

/-- C8 on glibc with the last descriptor, 1023, and the set at pointer 7. -/
theorem fd_do_set_adds_one_witness :
    ((0 : Int) ≤ 1023 ∧ (1023 : Int) < glibc64.FD_SETSIZE) ∧
    ∃ mem', fd_do_set glibc64 1023 7 (fun _ => fd_set.empty glibc64) = some mem' ∧
      FD_ISSET glibc64 1023 (mem' 7) = true ∧
      ∀ x : Int, 0 ≤ x → x < glibc64.FD_SETSIZE → x ≠ 1023 →
        (FD_ISSET glibc64 x (mem' 7) = true ↔
          FD_ISSET glibc64 x ((fun _ => fd_set.empty glibc64) 7) = true) :=
  ⟨by decide,
    fd_do_set_adds_one glibc64 1023 7 (fun _ => fd_set.empty glibc64) (by decide) (by decide)⟩

/-- C9: for descriptors `a`, `b` of `[0, FD_SETSIZE)` and every content of memory,
`fd_do_set` is defined, idempotent (`set a; set a = set a`) and order-independent
(`set a; set b = set b; set a`); `fd_do_zero` is idempotent, absorbs an `fd_do_set` before
it (`set a; zero = zero`), and its result does not depend on what the set held. -/
theorem fd_helpers_algebra (K : SelectParams) (a b : Int) (set : Nat) (mem : Memory K)
    (ha : 0 ≤ a ∧ a < K.FD_SETSIZE) (hb : 0 ≤ b ∧ b < K.FD_SETSIZE) :
    (∃ m, fd_do_set K a set mem = some m) ∧
    (fd_do_set K a set mem).bind (fd_do_set K a set) = fd_do_set K a set mem ∧
    (∃ m, (fd_do_set K a set mem).bind (fd_do_set K b set) = some m) ∧
    (fd_do_set K a set mem).bind (fd_do_set K b set)
      = (fd_do_set K b set mem).bind (fd_do_set K a set) ∧
    fd_do_zero K set (fd_do_zero K set mem) = fd_do_zero K set mem ∧
    (fd_do_set K a set mem).map (fd_do_zero K set) = some (fd_do_zero K set mem) ∧
    ∀ mem2 : Memory K, (∀ other, other ≠ set → mem2 other = mem other) →
      fd_do_zero K set mem2 = fd_do_zero K set mem := by
  have hia := (FD_INSIDE_iff K a).mpr ha
  have hib := (FD_INSIDE_iff K b).mpr hb
  obtain ⟨sa, hsa, hma⟩ := fd_do_set_some K a set mem hia
  obtain ⟨sb, hsb, hmb⟩ := fd_do_set_some K b set mem hib
  obtain ⟨saa, hsaa, hmaa⟩ := fd_do_set_some K a set (Function.update mem set sa) hia
  obtain ⟨sab, hsab, hmab⟩ := fd_do_set_some K b set (Function.update mem set sa) hib
  obtain ⟨sba, hsba, hmba⟩ := fd_do_set_some K a set (Function.update mem set sb) hia
  rw [Function.update_same] at hsaa hsab hsba
  rw [Function.update_idem] at hmaa hmab hmba
  have e1 : saa = sa := by
    have := FD_SET_idem K a (mem set) sa hsa
    rw [hsaa] at this
    exact Option.some.inj this
  have e2 : sab = sba := FD_SET_comm K a b (mem set) sa sb sab sba hsa hsb hsab hsba
  refine ⟨⟨_, hma⟩, ?_, ⟨Function.update mem set sab, ?_⟩, ?_, ?_, ?_, ?_⟩
  · rw [hma, Option.some_bind, hmaa, e1]
  · rw [hma, Option.some_bind, hmab]
  · rw [hma, hmb, Option.some_bind, Option.some_bind, hmab, hmba, e2]
  · unfold fd_do_zero
    rw [Function.update_same, Function.update_idem, FD_ZERO_const K (FD_ZERO K (mem set))]
  · rw [hma, Option.map_some']
    unfold fd_do_zero
    rw [Function.update_same, Function.update_idem, FD_ZERO_const K sa]
  · intro mem2 h2
    unfold fd_do_zero
    funext p
    by_cases hp : p = set
    · subst hp
      rw [Function.update_same, Function.update_same, FD_ZERO_const K (mem2 p)]
    · rw [Function.update_noteq hp, Function.update_noteq hp, h2 p hp]

/-- C9 on Darwin with the descriptors 4 and 700, the set at pointer 0. -/
theorem fd_helpers_algebra_witness :
    ((0 : Int) ≤ 4 ∧ (4 : Int) < darwin.FD_SETSIZE) ∧
    ((0 : Int) ≤ 700 ∧ (700 : Int) < darwin.FD_SETSIZE) ∧
    (∃ m, fd_do_set darwin 4 0 (fun _ => fd_set.full darwin) = some m) ∧
    (fd_do_set darwin 4 0 (fun _ => fd_set.full darwin)).bind (fd_do_set darwin 4 0)
      = fd_do_set darwin 4 0 (fun _ => fd_set.full darwin) ∧
    (∃ m, (fd_do_set darwin 4 0 (fun _ => fd_set.full darwin)).bind (fd_do_set darwin 700 0)
      = some m) ∧
    (fd_do_set darwin 4 0 (fun _ => fd_set.full darwin)).bind (fd_do_set darwin 700 0)
      = (fd_do_set darwin 700 0 (fun _ => fd_set.full darwin)).bind (fd_do_set darwin 4 0) ∧
    fd_do_zero darwin 0 (fd_do_zero darwin 0 (fun _ => fd_set.full darwin))
      = fd_do_zero darwin 0 (fun _ => fd_set.full darwin) ∧
    (fd_do_set darwin 4 0 (fun _ => fd_set.full darwin)).map (fd_do_zero darwin 0)
      = some (fd_do_zero darwin 0 (fun _ => fd_set.full darwin)) ∧
    ∀ mem2 : Memory darwin, (∀ other, other ≠ 0 → mem2 other = (fun _ => fd_set.full darwin) other) →
      fd_do_zero darwin 0 mem2 = fd_do_zero darwin 0 (fun _ => fd_set.full darwin) :=
  ⟨by decide, by decide,
    fd_helpers_algebra darwin 4 700 0 (fun _ => fd_set.full darwin) (by decide) (by decide)⟩

/-- C10: `fd_do_set` checks nothing, so `0 ≤ socket < FD_SETSIZE` is its precondition.
Under it the word index is `socket / NFDBITS` and below the number of words, the bit
index is `socket mod NFDBITS` and below `NFDBITS`, and the call is defined: the branch
of the embedding for a position outside the set is not taken.  For a socket outside the
range the position is not one of the set and the call is undefined: so for `-1` and
for `FD_SETSIZE`. -/
theorem fd_do_set_precondition (K : SelectParams) (socket : Int) (set : Nat)
    (mem : Memory K) :
    (0 ≤ socket ∧ socket < K.FD_SETSIZE →
      FD_ELT K socket = socket / K.NFDBITS ∧ FD_BIT K socket = socket % K.NFDBITS ∧
      0 ≤ FD_ELT K socket ∧ FD_ELT K socket < K.nwords ∧
      0 ≤ FD_BIT K socket ∧ FD_BIT K socket < K.NFDBITS ∧
      ∃ mem', fd_do_set K socket set mem = some mem') ∧
    (¬ (0 ≤ socket ∧ socket < K.FD_SETSIZE) →
      ¬ FD_INSIDE K socket ∧ fd_do_set K socket set mem = none) ∧
    (¬ FD_INSIDE K (-1) ∧ fd_do_set K (-1) set mem = none) ∧
    (¬ FD_INSIDE K K.FD_SETSIZE ∧ fd_do_set K K.FD_SETSIZE set mem = none) := by
  have hout : ∀ d : Int, ¬ (0 ≤ d ∧ d < K.FD_SETSIZE) →
      ¬ FD_INSIDE K d ∧ fd_do_set K d set mem = none := by
    intro d hd
    have hn : ¬ FD_INSIDE K d := fun h => hd ((FD_INSIDE_iff K d).mp h)
    exact ⟨hn, fd_do_set_none K d set mem hn⟩
  refine ⟨?_, hout socket, hout (-1) (by omega), hout K.FD_SETSIZE (by omega)⟩
  intro h
  have hi := (FD_INSIDE_iff K socket).mpr h
  obtain ⟨s', _, hm⟩ := fd_do_set_some K socket set mem hi
  have hN : (0 : Int) ≤ K.NFDBITS := by exact_mod_cast Nat.zero_le _
  refine ⟨Int.tdiv_eq_ediv h.1 hN, Int.tmod_eq_emod h.1 hN, hi.1, hi.2.1, hi.2.2.1,
    hi.2.2.2, _, hm⟩

/-- C10 on Darwin: the last descriptor, 1023, is inside; the socket -64 is outside. -/
theorem fd_do_set_precondition_witness :
    ((0 : Int) ≤ 1023 ∧ (1023 : Int) < darwin.FD_SETSIZE) ∧
    (FD_ELT darwin 1023 = 1023 / darwin.NFDBITS ∧ FD_BIT darwin 1023 = 1023 % darwin.NFDBITS ∧
      0 ≤ FD_ELT darwin 1023 ∧ FD_ELT darwin 1023 < darwin.nwords ∧
      0 ≤ FD_BIT darwin 1023 ∧ FD_BIT darwin 1023 < darwin.NFDBITS ∧
      ∃ mem', fd_do_set darwin 1023 0 (fun _ => fd_set.empty darwin) = some mem') ∧
    ¬ ((0 : Int) ≤ -64 ∧ (-64 : Int) < darwin.FD_SETSIZE) ∧
    (¬ FD_INSIDE darwin (-64) ∧
      fd_do_set darwin (-64) 0 (fun _ => fd_set.empty darwin) = none) :=
  ⟨by decide,
    (fd_do_set_precondition darwin 1023 0 (fun _ => fd_set.empty darwin)).1 (by decide),
    by decide,
    (fd_do_set_precondition darwin (-64) 0 (fun _ => fd_set.empty darwin)).2.1 (by decide)⟩

/-! ## The claims about the modelled core -/

/-- C4: in every state a session reaches, no two pending requests share an identifier;
`submit` never returns an identifier that a pending request of the session still has,
the table with the new request still has no identifier twice, and `submit` does return
an identifier as long as fewer requests are pending than there are identifiers. -/
theorem identifier_uniqueness (id_space : Nat) (events : List CorrelatorEvent)
    (payload : List Byte) (deadline : Option Nat) :
    (Correlator.run id_space events).ids.Nodup ∧
    (∀ i c', (Correlator.run id_space events).submit id_space payload deadline = some (i, c') →
      i ∉ (Correlator.run id_space events).ids ∧ c'.ids.Nodup) ∧
    ((Correlator.run id_space events).pending.length < id_space →
      ∃ i c', (Correlator.run id_space events).submit id_space payload deadline
        = some (i, c')) := by
  have hn : (Correlator.run id_space events).ids.Nodup :=
    foldl_step_nodup id_space events Correlator.init List.nodup_nil
  refine ⟨hn, ?_, ?_⟩
  · intro i c' h
    obtain ⟨h1, h2⟩ := submit_spec id_space _ payload deadline i c' h
    refine ⟨h1, ?_⟩
    rw [h2]
    exact List.Nodup.append hn (List.nodup_singleton i) (by simpa using h1)
  · intro hlen
    have hpos : 0 < id_space := by omega
    obtain ⟨i, hi⟩ := next_free_id_some id_space (Correlator.run id_space events).ids
      ((Correlator.run id_space events).counter % id_space) (Nat.mod_lt _ hpos)
      (by simpa [Correlator.ids] using hlen)
    unfold Correlator.submit
    rw [hi]
    exact ⟨i, _, rfl⟩

/-- C4 on a session with four identifiers of which three are in use, so that the next
`submit` wraps the counter and skips an identifier still in use. -/
theorem identifier_uniqueness_witness :
    (Correlator.run 4 sample_events).pending.length < 4 ∧
    (Correlator.run 4 sample_events).ids.Nodup ∧
    ∃ i c', (Correlator.run 4 sample_events).submit 4 [7] none = some (i, c') :=
  ⟨by decide, (identifier_uniqueness 4 sample_events [7] none).1,
    (identifier_uniqueness 4 sample_events [7] none).2.2 (by decide)⟩

/-- C5: for every well-formed request `r`, `try_decode (encode r)` returns the frame `r`
itself and reports as consumed exactly the length of `encode r`. -/
theorem frame_round_trip (F : FrameFormat) (r : Request) (h : r.well_formed F) :
    try_decode F (encode F r) = .frame r (encode F r).length ∧
      (try_decode F (encode F r)).consumed = (encode F r).length := by
  obtain ⟨h1, h2, h3⟩ := h
  have hlen : (encode F r).length = F.len_width + r.payload.length + F.id_width := by
    simp [encode, be_bytes_length]
    omega
  have htake : (encode F r).take F.len_width = be_bytes F.len_width r.payload.length := by
    unfold encode
    rw [List.append_assoc, List.take_left' (be_bytes_length _ _)]
  have hv : be_value ((encode F r).take F.len_width) = r.payload.length := by
    rw [htake, be_value_be_bytes _ _ h2]
  have hpay : ((encode F r).drop F.len_width).take r.payload.length = r.payload := by
    unfold encode
    rw [List.append_assoc, List.drop_left' (be_bytes_length _ _), List.take_left' rfl]
  have hid : ((encode F r).drop (F.len_width + r.payload.length)).take F.id_width
      = be_bytes F.id_width r.request_id := by
    unfold encode
    rw [List.drop_left' (by simp [be_bytes_length]), List.take_of_length_le
      (by rw [be_bytes_length])]
  have e : try_decode F (encode F r) = .frame r (encode F r).length := by
    unfold try_decode
    rw [if_neg (by omega)]
    simp only [hv]
    rw [if_neg (by omega), if_neg (by omega), hpay, hid, be_value_be_bytes _ _ h3, hlen]
  exact ⟨e, by rw [e]; rfl⟩

/-- C5 on the request with identifier 258 and the payload 1, 2, 3. -/
theorem frame_round_trip_witness :
    (⟨258, [1, 2, 3]⟩ : Request).well_formed FrameFormat.sample ∧
    try_decode FrameFormat.sample (encode FrameFormat.sample ⟨258, [1, 2, 3]⟩)
        = .frame ⟨258, [1, 2, 3]⟩ (encode FrameFormat.sample ⟨258, [1, 2, 3]⟩).length ∧
      (try_decode FrameFormat.sample (encode FrameFormat.sample ⟨258, [1, 2, 3]⟩)).consumed
        = (encode FrameFormat.sample ⟨258, [1, 2, 3]⟩).length :=
  ⟨by decide, frame_round_trip FrameFormat.sample ⟨258, [1, 2, 3]⟩ (by decide)⟩

/-- C6: for every buffer that holds a whole length field declaring a payload larger
than the configured maximum, `try_decode` returns `protocol_error`: not a frame, not
`incomplete`, and no byte is consumed. -/
theorem oversized_length_is_protocol_error (F : FrameFormat) (buffer : List Byte)
    (hw : F.len_width ≤ buffer.length)
    (hbig : F.max_payload < be_value (buffer.take F.len_width)) :
    try_decode F buffer = .protocol_error ∧
      (∀ f n, try_decode F buffer ≠ .frame f n) ∧
      try_decode F buffer ≠ .incomplete ∧
      (try_decode F buffer).consumed = 0 := by
  have e : try_decode F buffer = .protocol_error := by
    unfold try_decode
    rw [if_neg (by omega)]
    simp only
    rw [if_pos hbig]
  rw [e]
  refine ⟨rfl, ?_, ?_, rfl⟩
  · intro f n h
    cases h
  · intro h
    cases h

/-- C6 on a buffer whose length field declares 65535 bytes, with a maximum of 1000. -/
theorem oversized_length_is_protocol_error_witness :
    FrameFormat.sample.len_width ≤ [(255 : Byte), 255, 0, 1].length ∧
    FrameFormat.sample.max_payload
      < be_value ([(255 : Byte), 255, 0, 1].take FrameFormat.sample.len_width) ∧
    try_decode FrameFormat.sample [255, 255, 0, 1] = .protocol_error ∧
      (∀ f n, try_decode FrameFormat.sample [255, 255, 0, 1] ≠ .frame f n) ∧
      try_decode FrameFormat.sample [255, 255, 0, 1] ≠ .incomplete ∧
      (try_decode FrameFormat.sample [255, 255, 0, 1]).consumed = 0 :=
  ⟨by decide, by decide,
    oversized_length_is_protocol_error FrameFormat.sample [255, 255, 0, 1]
      (by decide) (by decide)⟩

/-- C3: every request the Client Loop accepts, so every request submitted while it is
`Ready` and an identifier is free, gets exactly one of the outcomes success, `Timeout`,
`Cancelled`, `ConnectionClosed` in its completion slot.  Never more than one: at any
time a slot holds at most one outcome, a pending request holds none, a request that is
no longer pending holds exactly one, and an outcome once delivered is never replaced nor
joined by another, whatever happens later.  Never zero, eventually: when the session is
torn down, at the latest, the slot holds exactly one outcome. -/
theorem exactly_one_outcome (id_space : Nat) (events : List ClientEvent) (slot : Nat) :
    ((ClientLoop.run id_space events).outcomes slot).length ≤ 1 ∧
    (slot < (ClientLoop.run id_space events).calls →
      (slot ∈ (ClientLoop.run id_space events).pending_slots ∧
          (ClientLoop.run id_space events).outcomes slot = []) ∨
        (slot ∉ (ClientLoop.run id_space events).pending_slots ∧
          ∃ o, (ClientLoop.run id_space events).outcomes slot = [o])) ∧
    (slot < (ClientLoop.run id_space events).calls →
      ∃ o, (ClientLoop.run id_space (events ++ [.close])).outcomes slot = [o]) ∧
    (∀ more o, (ClientLoop.run id_space events).outcomes slot = [o] →
      (ClientLoop.run id_space (events ++ more)).outcomes slot = [o]) ∧
    (∀ payload deadline, (ClientLoop.run id_space events).state = .Ready →
      (ClientLoop.run id_space events).correlator.pending.length < id_space →
      (ClientLoop.run id_space (events ++ [.call payload deadline])).calls
          = (ClientLoop.run id_space events).calls + 1 ∧
        (ClientLoop.run id_space events).calls
          ∈ (ClientLoop.run id_space (events ++ [.call payload deadline])).pending_slots) := by
  obtain ⟨hle, hcases⟩ := outcomes_of_run id_space events slot
  refine ⟨hle, hcases, ?_, ?_, ?_⟩
  · intro hlt
    obtain ⟨_, hcl⟩ := run_invariant id_space (events ++ [.close])
    obtain ⟨_, hc2⟩ := outcomes_of_run id_space (events ++ [.close]) slot
    have hrun := run_append id_space events [.close]
    simp only [List.foldl_cons, List.foldl_nil] at hrun
    obtain ⟨hst, hcalls⟩ := step_close id_space (ClientLoop.run id_space events)
    rw [← hrun] at hst hcalls
    rcases hc2 (by rw [hcalls]; exact hlt) with ⟨hp, _⟩ | ⟨_, ho⟩
    · unfold ClientLoop.pending_slots at hp
      rw [hcl hst] at hp
      cases hp
    · exact ho
  · intro more o ho
    obtain ⟨extra, hx⟩ := foldl_step_delivered id_space more (ClientLoop.run id_space events)
    obtain ⟨hle2, _⟩ := outcomes_of_run id_space (events ++ more) slot
    rw [run_append] at hle2 ⊢
    unfold ClientLoop.outcomes at hle2 ho ⊢
    rw [hx, List.filter_append, List.map_append, ho] at hle2 ⊢
    have hnil : List.map (fun p : Nat × Outcome => p.2)
        (List.filter (fun p => decide (p.1 = slot)) extra) = [] := by
      apply List.length_eq_zero.mp
      simp only [List.length_append, List.length_cons, List.length_nil] at hle2
      omega
    rw [hnil]
    rfl
  · intro payload deadline hready hlen
    obtain ⟨i, c', hsub⟩ := submit_some id_space _ payload deadline hlen
    rw [run_append]
    simp only [List.foldl_cons, List.foldl_nil, ClientLoop.step]
    rw [if_pos (Or.inr hready), hsub]
    exact ⟨rfl, by simp [ClientLoop.pending_slots]⟩

/-- C3 on the sample session: its fourth request (slot 3) is accepted while `Ready`, is
pending, and holds exactly one outcome once the session is closed; the second request
(slot 1) holds one outcome already and keeps it. -/
theorem exactly_one_outcome_witness :
    3 < (ClientLoop.run 4 sample_session).calls ∧
    ((3 ∈ (ClientLoop.run 4 sample_session).pending_slots ∧
        (ClientLoop.run 4 sample_session).outcomes 3 = []) ∨
      (3 ∉ (ClientLoop.run 4 sample_session).pending_slots ∧
        ∃ o, (ClientLoop.run 4 sample_session).outcomes 3 = [o])) ∧
    (∃ o, (ClientLoop.run 4 (sample_session ++ [.close])).outcomes 3 = [o]) ∧
    (ClientLoop.run 4 sample_session).outcomes 1 = [.success [9]] ∧
    (ClientLoop.run 4 (sample_session ++ [.frame 1 [8], .close])).outcomes 1 = [.success [9]] :=
  ⟨by decide, (exactly_one_outcome 4 sample_session 3).2.1 (by decide),
    (exactly_one_outcome 4 sample_session 3).2.2.1 (by decide), by decide,
    (exactly_one_outcome 4 sample_session 1).2.2.2.1 [.frame 1 [8], .close] (.success [9])
      (by decide)⟩

end LightningLink
